import Mathlib

/-!
Verification of the chess-knowledge difficulty splitter (`split.py`).

The Python source is shallowly embedded below.  Numeric values handled by the
program as floats are modelled exactly over `ℚ`; dictionaries with a fixed set
of optional fields become structures of `Option`-typed fields; the recursive
move tree becomes the inductive `Node`.  Fallible code (Python expressions that
can raise, such as indexing the last element of a possibly empty list) is
modelled with `Option`.
-/

set_option maxHeartbeats 1000000

namespace ChessSplit

/-- Clamp a rational to the interval [0,1]; embeds `max(0.0, min(1.0, x))`
from the end of `calculate_difficulty_score`. -/
def clamp01 (x : ℚ) : ℚ := max 0 (min 1 x)

/-- Piece counts for the 12 piece letters, as produced by `count_pieces`. -/
structure PieceCounts where
  P : Nat
  N : Nat
  B : Nat
  R : Nat
  Q : Nat
  K : Nat
  p : Nat
  n : Nat
  b : Nat
  r : Nat
  q : Nat
  k : Nat
deriving DecidableEq

/-- Embeds `parse_fen_from_position`: if the position string contains a space,
keep only the part before the first space. -/
def parse_fen_from_position (position : String) : String :=
  if position.toList.contains ' ' then
    String.mk (position.toList.takeWhile (fun c => c ≠ ' '))
  else position

/-- Embeds `count_pieces`: count occurrences of each piece letter in the FEN
string; an empty string yields all-zero counts (the Python `not fen` guard). -/
def count_pieces (fen : String) : PieceCounts :=
  if fen.isEmpty then ⟨0, 0, 0, 0, 0, 0, 0, 0, 0, 0, 0, 0⟩
  else
    { P := fen.toList.count 'P'
      N := fen.toList.count 'N'
      B := fen.toList.count 'B'
      R := fen.toList.count 'R'
      Q := fen.toList.count 'Q'
      K := fen.toList.count 'K'
      p := fen.toList.count 'p'
      n := fen.toList.count 'n'
      b := fen.toList.count 'b'
      r := fen.toList.count 'r'
      q := fen.toList.count 'q'
      k := fen.toList.count 'k' }

/-- White material value (kings excluded), shared by `determine_game_phase`
and `calculate_position_complexity`. -/
def white_material (pc : PieceCounts) : ℚ :=
  (pc.P : ℚ) * 1 + (pc.N : ℚ) * 3 + (pc.B : ℚ) * 3 + (pc.R : ℚ) * 5 + (pc.Q : ℚ) * 9

/-- Black material value (kings excluded). -/
def black_material (pc : PieceCounts) : ℚ :=
  (pc.p : ℚ) * 1 + (pc.n : ℚ) * 3 + (pc.b : ℚ) * 3 + (pc.r : ℚ) * 5 + (pc.q : ℚ) * 9

/-- Total material over both sides, kings excluded. -/
def total_material (pc : PieceCounts) : ℚ :=
  white_material pc + black_material pc

/-- Total number of non-pawn, non-king pieces, as in `determine_game_phase`. -/
def total_pieces (pc : PieceCounts) : Nat :=
  pc.N + pc.B + pc.R + pc.Q + pc.n + pc.b + pc.r + pc.q

/-- Embeds `determine_game_phase`: classify the game phase from piece counts.
Note that the "late opening" branch uses `min 1` only — there is no lower
clamp at 0. -/
def determine_game_phase (pc : PieceCounts) : String × ℚ :=
  if 12 ≤ total_pieces pc ∧ 1 ≤ pc.Q ∧ 1 ≤ pc.q then
    ("opening", 0)
  else if 30 ≤ total_material pc then
    ("opening", min 1 ((40 - total_material pc) / 10))
  else if 20 ≤ total_material pc then
    ("middlegame", (30 - total_material pc) / 10)
  else if 10 ≤ total_material pc then
    ("endgame", (20 - total_material pc) / 10)
  else
    ("endgame", 1)

/-- Embeds `calculate_position_complexity`: weighted blend of piece density,
material balance and a queen bonus, clamped above by 1 (`min(1.0, ...)`);
there is no lower clamp at 0. -/
def calculate_position_complexity (pc : PieceCounts) : ℚ :=
  let minor_pieces : ℚ := (pc.N : ℚ) + (pc.B : ℚ) + (pc.n : ℚ) + (pc.b : ℚ)
  let major_pieces : ℚ := (pc.R : ℚ) + (pc.Q : ℚ) + (pc.r : ℚ) + (pc.q : ℚ)
  let pawns : ℚ := (pc.P : ℚ) + (pc.p : ℚ)
  let piece_complexity := (minor_pieces * 0.7 + major_pieces * 1.2 + pawns * 0.4) / 20
  let material_imbalance := |white_material pc - black_material pc| / 32
  let queen_factor : ℚ := if 0 < pc.Q ∨ 0 < pc.q then 0.2 else 0
  min 1 (piece_complexity * 0.6 + (1 - material_imbalance) * 0.2 + queen_factor)

/-- Embeds `is_opening_theory`: early moves (depth ≤ 10) count as theory with
strength `max 0 (1 - depth/10)`. -/
def is_opening_theory (move_sequence : List String) (depth : ℚ) : Bool × ℚ :=
  if depth ≤ 10 then (true, max 0 (1 - depth / 10)) else (false, 0)

/-- Optional statistics fields of a tree node, embedding the open `stats`
dictionary (absent keys are `none`). -/
structure Stats where
  rating : Option ℚ := none
  timesPlayed : Option ℚ := none
  wins : Option ℚ := none
  losses : Option ℚ := none
  draws : Option ℚ := none
  type : Option String := none
  position : Option String := none
  timesVisited : Option ℚ := none
  firstSeen : Option ℚ := none

/-- Embeds `calculate_win_rate`: `(wins + draws/2) / total`, or 1/2 when the
total is zero. -/
def calculate_win_rate (stats : Stats) : ℚ :=
  let wins := stats.wins.getD 0
  let losses := stats.losses.getD 0
  let draws := stats.draws.getD 0
  let total := wins + losses + draws
  if total = 0 then 0.5 else (wins + draws * 0.5) / total

/-- Phase-specific adjustment from the first half of `calculate_difficulty_score`.
Returns `none` exactly where the Python code raises an `IndexError`: in the
late-endgame branch with an empty move sequence (`move_sequence[-1]`). -/
def phase_adjusted (difficulty : ℚ) (phase_name : String) (phase_progress : ℚ)
    (times_played depth position_complexity : ℚ) (move_sequence : List String)
    (is_capture is_check : Bool) : Option ℚ :=
  if phase_name = "opening" then
    if (is_opening_theory move_sequence depth).1 then
      some (if 10 < times_played then
              difficulty * (0.7 + 0.3 * (is_opening_theory move_sequence depth).2) * 0.9
            else difficulty * (0.7 + 0.3 * (is_opening_theory move_sequence depth).2))
    else some difficulty
  else if phase_name = "middlegame" then
    some (if is_capture || is_check then difficulty * 1.1 * 1.15 else difficulty * 1.1)
  else if phase_name = "endgame" then
    if 0.7 < phase_progress then
      match move_sequence.getLast? with
      | none => none
      | some lastMove =>
        some (if (lastMove.toList.filter Char.isAlpha).length ≤ 3 then
                difficulty * (0.9 + position_complexity * 0.5)
              else difficulty * 1.2)
    else some difficulty
  else some difficulty

/-- The frequency adjustment: `if times_played > 0` multiply by
`1 - 0.2/(1 + 0.05*times_played)`. -/
def apply_frequency (d times_played : ℚ) : ℚ :=
  if 0 < times_played then d * (1 - 0.2 / (1 + 0.05 * times_played)) else d

/-- The follow-up bonus: multiply by 1.05 when the move has children. -/
def apply_children (d : ℚ) (has_children : Bool) : ℚ :=
  if has_children then d * 1.05 else d

/-- Tactical-move adjustment: for captures and checks multiply by 1.1 when
deeper than 2, else by 0.95. -/
def apply_tactical (d depth : ℚ) (is_capture is_check : Bool) : ℚ :=
  if is_capture || is_check then (if 2 < depth then d * 1.1 else d * 0.95) else d

/-- The phase-independent adjustments from the second half of
`calculate_difficulty_score`, in source order: complexity factor, depth
factor, frequency factor, win-rate factor, follow-up bonus, tactical
adjustment — before the final clamp. -/
def final_adjusted (difficulty : ℚ) (position_complexity depth times_played win_rate : ℚ)
    (has_children is_capture is_check : Bool) : ℚ :=
  apply_tactical
    (apply_children
      (apply_frequency (difficulty * (0.7 + 0.6 * position_complexity) * (1 + depth * 0.03))
          times_played *
        (0.8 + 0.2 * (1 - |win_rate - 0.5| * 0.4)))
      has_children)
    depth is_capture is_check

/-- Embeds `calculate_difficulty_score`: base rating difficulty, phase
adjustment, generic adjustments, clamped to [0,1].  `none` models the
`IndexError` raised on an empty move sequence in the late-endgame branch. -/
def calculate_difficulty_score (rating times_played win_rate depth : ℚ)
    (has_children : Bool) (game_phase : String × ℚ) (position_complexity : ℚ)
    (move_sequence : List String) (is_capture is_check : Bool) : Option ℚ :=
  (phase_adjusted ((rating - 800) / 2000) game_phase.1 game_phase.2 times_played depth
      position_complexity move_sequence is_capture is_check).map
    (fun d => clamp01 (final_adjusted d position_complexity depth times_played win_rate
      has_children is_capture is_check))

/-- A node of the move tree: a mapping from move notations to child nodes
(association list with the dictionary's insertion order), optional `stats`
and an optional `position` string. -/
inductive Node where
  | mk (moves : List (String × Node)) (stats : Option Stats) (position : Option String)

/-- The child mapping of a node. -/
def Node.moves : Node → List (String × Node)
  | .mk m _ _ => m

/-- The optional stats of a node. -/
def Node.stats : Node → Option Stats
  | .mk _ s _ => s

/-- The optional position string of a node. -/
def Node.position : Node → Option String
  | .mk _ _ p => p

/-- A scored move record, embedding the dictionary appended by
`analyze_move_difficulty` for every move. -/
structure ScoredMove where
  move : String
  path : List String
  difficulty : ℚ
  rating : ℚ
  times_played : ℚ
  win_rate : ℚ
  depth : Nat
  game_phase : String
  phase_progress : ℚ
  position_complexity : ℚ
  move_data : Node
  move_sequence : List String

/-- Python truthiness of an optional string: `none` and the empty string are
falsy. -/
def optTruthy : Option String → Bool
  | some s => !s.isEmpty
  | none => false

/-- The node's own position data: explicit `position` field if the key is
present, else `stats.position` — the resolution used both for the node itself
and for the `next_position` passed to recursive calls. -/
def ownPosRaw (node : Node) : Option String :=
  match node.position with
  | some s => some s
  | none =>
    match node.stats with
    | some st => st.position
    | none => none

/-- The effective position at a node: the inherited argument if truthy, else
the node's own position data (`position_info` in `analyze_move_difficulty`). -/
def resolve_position_info (position : Option String) (node : Node) : Option String :=
  if optTruthy position then position else ownPosRaw node

/-- Piece counts derived from an effective position, or `none` when no truthy
position string (and hence no truthy FEN) is available. -/
def resolve_piece_counts (position_info : Option String) : Option PieceCounts :=
  if optTruthy position_info then
    let fen := parse_fen_from_position (position_info.getD "")
    if fen.isEmpty then none else some (count_pieces fen)
  else none

/-- Game phase and position complexity at a node: computed from piece counts
when available, else the defaults `("unknown", 0.5)` and `0.5`. -/
def node_phase_complexity (position : Option String) (node : Node) : (String × ℚ) × ℚ :=
  match resolve_piece_counts (resolve_position_info position node) with
  | some pc => (determine_game_phase pc, calculate_position_complexity pc)
  | none => (("unknown", 0.5), 0.5)

/-- Python's substring containment `needle in hay` on strings. -/
def containsSub (hay needle : String) : Bool :=
  (List.range (hay.toList.length + 1)).any
    (fun i => needle.toList.isPrefixOf (hay.toList.drop i))

/-- Whether move stats mark the move as a capture: case-insensitive substring
test on the `type` field, false when the field is absent. -/
def statsIsCapture (stats : Stats) : Bool :=
  match stats.type with
  | some ty => containsSub ty.toLower "capture"
  | none => false

/-- Whether move stats mark the move as a check. -/
def statsIsCheck (stats : Stats) : Bool :=
  match stats.type with
  | some ty => containsSub ty.toLower "check"
  | none => false

/-- The scored record emitted for a single move of a node, given the node's
resolved game phase and complexity. -/
def mkScoredMove (current_depth : Nat) (path : List String) (move_sequence : List String)
    (game_phase : String × ℚ) (position_complexity : ℚ)
    (move_name : String) (move_data : Node) : ScoredMove :=
  let stats := move_data.stats.getD {}
  -- The walker always passes a nonempty move sequence, so the scorer cannot
  -- fail here; `getD 0` discharges the `Option`.
  let difficulty_score :=
    (calculate_difficulty_score (stats.rating.getD 1200) (stats.timesPlayed.getD 0)
      (calculate_win_rate stats) (current_depth : ℚ) (!move_data.moves.isEmpty)
      game_phase position_complexity (move_sequence ++ [move_name])
      (statsIsCapture stats) (statsIsCheck stats)).getD 0
  { move := move_name
    path := path
    difficulty := difficulty_score
    rating := stats.rating.getD 1200
    times_played := stats.timesPlayed.getD 0
    win_rate := calculate_win_rate stats
    depth := current_depth
    game_phase := game_phase.1
    phase_progress := game_phase.2
    position_complexity := position_complexity
    move_data := move_data
    move_sequence := move_sequence ++ [move_name] }

lemma sizeOf_moves_lt (node : Node) : sizeOf node.moves < sizeOf node := by
  obtain ⟨m, s, p⟩ := node
  simp only [Node.moves, Node.mk.sizeOf_spec]
  omega

mutual

/-- Embeds `analyze_move_difficulty`: depth-first walk emitting a scored
record for every move, recursing with the child's own position data
(`next_position`) as the inherited position. -/
def analyze_move_difficulty : Node → Nat → List String → Option String → List String →
    List ScoredMove
  | node, current_depth, path, position, move_sequence =>
    analyze_moves_list node.moves current_depth path move_sequence
      (node_phase_complexity position node).1 (node_phase_complexity position node).2
termination_by node _ _ _ _ => sizeOf node
decreasing_by
  exact sizeOf_moves_lt node

/-- The per-move loop body of `analyze_move_difficulty`: emit the scored
record for each move, then the records of its subtree. -/
def analyze_moves_list : List (String × Node) → Nat → List String → List String →
    String × ℚ → ℚ → List ScoredMove
  | [], _, _, _, _, _ => []
  | (move_name, move_data) :: rest, current_depth, path, move_sequence, game_phase,
      position_complexity =>
    (mkScoredMove current_depth path move_sequence game_phase position_complexity
        move_name move_data ::
      analyze_move_difficulty move_data (current_depth + 1) (path ++ [move_name])
        (ownPosRaw move_data) (move_sequence ++ [move_name])) ++
      analyze_moves_list rest current_depth path move_sequence game_phase position_complexity
termination_by l _ _ _ _ _ => sizeOf l
decreasing_by
  · simp only [Prod.mk.sizeOf_spec, List.cons.sizeOf_spec]
    omega
  · simp only [List.cons.sizeOf_spec]
    omega

end

/-- The fixed tier percentages of `categorize_moves_by_difficulty`. -/
def level_percentages : List Nat := [5, 10, 15, 20, 20, 15, 10, 5]

/-- Stable ascending sort by difficulty, embedding
`sorted(moves_with_difficulty, key=lambda x: x['difficulty'])`. -/
def sortByDifficulty (moves : List ScoredMove) : List ScoredMove :=
  moves.mergeSort (fun a b => decide (a.difficulty ≤ b.difficulty))

/-- The slicing loop of `categorize_moves_by_difficulty`: for each percentage,
take `floor(percentage/100 * total)` moves starting at the running index,
never exceeding the total.  Returns the slices and the final index. -/
def slice_levels (sorted : List ScoredMove) (total : Nat) :
    List Nat → Nat → List (List ScoredMove) × Nat
  | [], start_idx => ([], start_idx)
  | perc :: rest, start_idx =>
    let end_idx := min (start_idx + perc * total / 100) total
    let tail := slice_levels sorted total rest end_idx
    (((sorted.drop start_idx).take (end_idx - start_idx)) :: tail.1, tail.2)

/-- Append the leftover moves to the final tier
(`difficulty_levels[-1].extend(...)`). -/
def extendLast : List (List ScoredMove) → List ScoredMove → List (List ScoredMove)
  | [], _ => []
  | [l], extra => [l ++ extra]
  | l :: ls, extra => l :: extendLast ls extra

/-- Embeds `categorize_moves_by_difficulty` with `num_levels = 8`: sort by
difficulty, cut percentage slices, and append the flooring remainder to the
last tier; an empty population yields eight empty tiers. -/
def categorize_moves_by_difficulty (moves : List ScoredMove) : List (List ScoredMove) :=
  if (sortByDifficulty moves).length = 0 then List.replicate 8 []
  else if (slice_levels (sortByDifficulty moves) (sortByDifficulty moves).length
      level_percentages 0).2 < (sortByDifficulty moves).length then
    extendLast
      (slice_levels (sortByDifficulty moves) (sortByDifficulty moves).length
        level_percentages 0).1
      ((sortByDifficulty moves).drop
        (slice_levels (sortByDifficulty moves) (sortByDifficulty moves).length
          level_percentages 0).2)
  else
    (slice_levels (sortByDifficulty moves) (sortByDifficulty moves).length
      level_percentages 0).1

/-- First-match association-list lookup, embedding dictionary key lookup. -/
def lookupMove : List (String × Node) → String → Option Node
  | [], _ => none
  | (key, c) :: rest, s => if key = s then some c else lookupMove rest s

/-- Dictionary assignment `moves[k] = v`: replace the value of an existing
key in place, or append a new entry. -/
def setMoveList (l : List (String × Node)) (s : String) (v : Node) : List (String × Node) :=
  if l.any (fun x => x.1 = s) then
    l.map (fun x => if x.1 = s then (s, v) else x)
  else l ++ [(s, v)]

/-- Follow a path of move notations down a tree. -/
def nodeAtPath : Node → List String → Option Node
  | node, [] => some node
  | node, s :: rest =>
    match lookupMove node.moves s with
    | some c => nodeAtPath c rest
    | none => none

/-- Whether the tree has the move `v` at the end of path `p`. -/
def containsMovePath (node : Node) (p : List String) (v : String) : Bool :=
  match nodeAtPath node p with
  | some u => (lookupMove u.moves v).isSome
  | none => false

/-- The fresh intermediate node created for missing path segments in
`create_level_knowledge_tree`. -/
def placeholderNode : Node :=
  .mk [] (some { timesVisited := some 0 }) none

/-- The fresh root node of `create_level_knowledge_tree`. -/
def levelRootNode : Node :=
  .mk [] (some { timesVisited := some 0, firstSeen := some 0 }) none

/-- Walk a move's stored path from a node, creating missing intermediate
placeholder nodes, and attach the move's data under its final key — the loop
body of `create_level_knowledge_tree` for one move. -/
def insertAtPath : Node → List String → String → Node → Node
  | node, [], v, data => .mk (setMoveList node.moves v data) node.stats node.position
  | node, s :: rest, v, data =>
    let child :=
      match lookupMove node.moves s with
      | some c => c
      | none => placeholderNode
    .mk (setMoveList node.moves s (insertAtPath child rest v data)) node.stats node.position

/-- Embeds `create_level_knowledge_tree`: fold the tier's moves into a fresh
root. -/
def create_level_knowledge_tree (level_moves : List ScoredMove) : Node :=
  level_moves.foldl (fun acc m => insertAtPath acc m.path m.move m.move_data) levelRootNode

mutual

/-- Nodup keys at every node of a tree: the well-formedness guaranteed for
trees parsed from JSON dictionaries. -/
def Node.wfB : Node → Bool
  | node => decide ((node.moves.map Prod.fst).Nodup) && wfListB node.moves
termination_by node => sizeOf node
decreasing_by
  exact sizeOf_moves_lt node

/-- Well-formedness of a list of children. -/
def wfListB : List (String × Node) → Bool
  | [] => true
  | (_, c) :: rest => c.wfB && wfListB rest
termination_by l => sizeOf l
decreasing_by
  · simp only [Prod.mk.sizeOf_spec, List.cons.sizeOf_spec]
    omega
  · simp only [List.cons.sizeOf_spec]
    omega

end

/-! Basic lemmas about the scorer. -/

lemma clamp01_nonneg (x : ℚ) : 0 ≤ clamp01 x := le_max_left 0 _

lemma clamp01_le_one (x : ℚ) : clamp01 x ≤ 1 :=
  max_le zero_le_one (min_le_left 1 x)

lemma clamp01_of_nonpos {x : ℚ} (h : x ≤ 0) : clamp01 x = 0 := by
  unfold clamp01
  rw [min_eq_right (le_trans h zero_le_one), max_eq_left h]

lemma phase_adjusted_isSome (difficulty : ℚ) (phase_name : String) (phase_progress : ℚ)
    (times_played depth position_complexity : ℚ) (move_sequence : List String)
    (is_capture is_check : Bool) (hseq : move_sequence ≠ []) :
    (phase_adjusted difficulty phase_name phase_progress times_played depth
      position_complexity move_sequence is_capture is_check).isSome = true := by
  obtain ⟨lastMove, hlast⟩ := Option.isSome_iff_exists.1 (List.getLast?_isSome.2 hseq)
  unfold phase_adjusted
  rw [hlast]
  repeat' split
  all_goals simp_all

lemma phase_adjusted_nonpos (difficulty : ℚ) (phase_name : String) (phase_progress : ℚ)
    (times_played depth position_complexity : ℚ) (move_sequence : List String)
    (is_capture is_check : Bool) (hdiff : difficulty ≤ 0) (hc : 0 ≤ position_complexity)
    {d : ℚ}
    (h : phase_adjusted difficulty phase_name phase_progress times_played depth
      position_complexity move_sequence is_capture is_check = some d) :
    d ≤ 0 := by
  have hth : 0 ≤ (is_opening_theory move_sequence depth).2 := by
    unfold is_opening_theory
    split_ifs <;> simp [le_max_left]
  have hf1 : (0 : ℚ) ≤ 0.7 + 0.3 * (is_opening_theory move_sequence depth).2 := by
    nlinarith [hth]
  unfold phase_adjusted at h
  repeat' split at h
  all_goals cases h
  all_goals nlinarith [hth, hc, hf1, hdiff]

lemma final_adjusted_nonpos (difficulty : ℚ) (position_complexity depth times_played win_rate : ℚ)
    (has_children is_capture is_check : Bool)
    (hdiff : difficulty ≤ 0) (hc : 0 ≤ position_complexity) (hd : 0 ≤ depth)
    (hw0 : 0 ≤ win_rate) (hw1 : win_rate ≤ 1) :
    final_adjusted difficulty position_complexity depth times_played win_rate
      has_children is_capture is_check ≤ 0 := by
  have habs : |win_rate - 0.5| ≤ 0.5 := by
    rw [abs_le]
    constructor <;> linarith
  have hwf : (0 : ℚ) ≤ 0.8 + 0.2 * (1 - |win_rate - 0.5| * 0.4) := by
    nlinarith [abs_nonneg (win_rate - 0.5)]
  have h2 : difficulty * (0.7 + 0.6 * position_complexity) ≤ 0 := by nlinarith
  have h3 : difficulty * (0.7 + 0.6 * position_complexity) * (1 + depth * 0.03) ≤ 0 := by
    nlinarith [h2]
  have h4 : apply_frequency
      (difficulty * (0.7 + 0.6 * position_complexity) * (1 + depth * 0.03)) times_played ≤ 0 := by
    unfold apply_frequency
    split_ifs with ht
    · have h1 : (1 : ℚ) ≤ 1 + 0.05 * times_played := by linarith
      have hds := div_le_self (by norm_num : (0 : ℚ) ≤ 0.2) h1
      nlinarith
    · exact h3
  have h5 : apply_frequency
        (difficulty * (0.7 + 0.6 * position_complexity) * (1 + depth * 0.03)) times_played *
      (0.8 + 0.2 * (1 - |win_rate - 0.5| * 0.4)) ≤ 0 := by
    nlinarith
  have h6 : apply_children
      (apply_frequency
          (difficulty * (0.7 + 0.6 * position_complexity) * (1 + depth * 0.03)) times_played *
        (0.8 + 0.2 * (1 - |win_rate - 0.5| * 0.4))) has_children ≤ 0 := by
    unfold apply_children
    split_ifs <;> nlinarith
  unfold final_adjusted apply_tactical
  split_ifs <;> nlinarith

/-- The difficulty scorer never fails on a nonempty move sequence, and its
value is the clamp of the adjusted base difficulty. -/
lemma calculate_difficulty_score_isSome (rating times_played win_rate depth : ℚ)
    (has_children : Bool) (game_phase : String × ℚ) (position_complexity : ℚ)
    (move_sequence : List String) (is_capture is_check : Bool)
    (hseq : move_sequence ≠ []) :
    (calculate_difficulty_score rating times_played win_rate depth has_children
      game_phase position_complexity move_sequence is_capture is_check).isSome = true := by
  unfold calculate_difficulty_score
  rw [Option.isSome_map']
  exact phase_adjusted_isSome _ _ _ _ _ _ _ _ _ hseq

/-- C2 counterexample input evaluates to `none` (the Python code raises
`IndexError` on the empty move sequence in the late-endgame branch). -/
theorem difficulty_score_empty_seq_crash :
    calculate_difficulty_score 1200 0 (1/2) 0 false ("endgame", 4/5) (1/2) [] false false
      = none := by
  norm_num [calculate_difficulty_score, phase_adjusted]
  simp

/-- C2 (amended): for all valid inputs whose move sequence is nonempty, the
difficulty scorer returns a value, and that value lies in [0,1]. -/
theorem difficulty_score_bounds (rating times_played win_rate depth : ℚ)
    (has_children : Bool) (game_phase : String × ℚ) (position_complexity : ℚ)
    (move_sequence : List String) (is_capture is_check : Bool)
    (htp : 0 ≤ times_played) (hw0 : 0 ≤ win_rate) (hw1 : win_rate ≤ 1)
    (hd : 0 ≤ depth) (hc0 : 0 ≤ position_complexity) (hc1 : position_complexity ≤ 1)
    (hseq : move_sequence ≠ []) :
    ∃ sc, calculate_difficulty_score rating times_played win_rate depth has_children
        game_phase position_complexity move_sequence is_capture is_check = some sc ∧
      0 ≤ sc ∧ sc ≤ 1 := by
  obtain ⟨sc, hsc⟩ := Option.isSome_iff_exists.1
    (calculate_difficulty_score_isSome rating times_played win_rate depth has_children
      game_phase position_complexity move_sequence is_capture is_check hseq)
  refine ⟨sc, hsc, ?_, ?_⟩ <;>
  · unfold calculate_difficulty_score at hsc
    obtain ⟨d, _, hd2⟩ := Option.map_eq_some'.1 hsc
    subst hd2
    first
      | exact clamp01_nonneg _
      | exact clamp01_le_one _

/-- Witness for the amended C2 theorem at a concrete valid input. -/
theorem difficulty_score_bounds_witness :
    ∃ sc, calculate_difficulty_score 1200 0 (1/2) 0 false ("middlegame", 1/2) (1/2)
        ["e4"] false false = some sc ∧
      0 ≤ sc ∧ sc ≤ 1 :=
  difficulty_score_bounds 1200 0 (1/2) 0 false ("middlegame", 1/2) (1/2) ["e4"] false false
    (by norm_num) (by norm_num) (by norm_num) (by norm_num) (by norm_num) (by norm_num)
    (by simp)

/-- C10 counterexample: at rating 800 with an empty move sequence in the late
endgame, the scorer does not return 0.0 — it raises (returns `none`). -/
theorem low_rating_empty_seq_crash :
    calculate_difficulty_score 800 0 (1/2) 0 false ("endgame", 1) (1/2) [] false false
      = none := by
  norm_num [calculate_difficulty_score, phase_adjusted]
  simp

/-- C10 (amended): for rating ≤ 800 and valid inputs with a nonempty move
sequence, the scorer returns exactly 0, since the base is non-positive, every
multiplier is non-negative, and the lower clamp fires. -/
theorem low_rating_score_zero (rating times_played win_rate depth : ℚ)
    (has_children : Bool) (game_phase : String × ℚ) (position_complexity : ℚ)
    (move_sequence : List String) (is_capture is_check : Bool)
    (hr : rating ≤ 800) (htp : 0 ≤ times_played) (hw0 : 0 ≤ win_rate) (hw1 : win_rate ≤ 1)
    (hd : 0 ≤ depth) (hc0 : 0 ≤ position_complexity) (hseq : move_sequence ≠ []) :
    calculate_difficulty_score rating times_played win_rate depth has_children
      game_phase position_complexity move_sequence is_capture is_check = some 0 := by
  obtain ⟨d, hd2⟩ := Option.isSome_iff_exists.1
    (phase_adjusted_isSome ((rating - 800) / 2000) game_phase.1 game_phase.2 times_played
      depth position_complexity move_sequence is_capture is_check hseq)
  have hbase : (rating - 800) / 2000 ≤ 0 := by
    apply div_nonpos_of_nonpos_of_nonneg <;> linarith
  have hdle : d ≤ 0 :=
    phase_adjusted_nonpos ((rating - 800) / 2000) game_phase.1 game_phase.2 times_played
      depth position_complexity move_sequence is_capture is_check hbase hc0 hd2
  have hfin : final_adjusted d position_complexity depth times_played win_rate
      has_children is_capture is_check ≤ 0 :=
    final_adjusted_nonpos d position_complexity depth times_played win_rate
      has_children is_capture is_check hdle hc0 hd hw0 hw1
  unfold calculate_difficulty_score
  rw [hd2, Option.map_some', clamp01_of_nonpos hfin]

/-- Witness for the amended C10 theorem at a concrete input. -/
theorem low_rating_score_zero_witness :
    calculate_difficulty_score 800 0 (1/2) 0 false ("middlegame", 1/2) (1/2)
      ["e4"] false false = some 0 :=
  low_rating_score_zero 800 0 (1/2) 0 false ("middlegame", 1/2) (1/2) ["e4"] false false
    (by norm_num) (by norm_num) (by norm_num) (by norm_num) (by norm_num) (by norm_num)
    (by simp)

/-- C3 counterexample: at the spec's worked-scenario input the scorer returns
11/50 = 0.22, not approximately 0.198 (the gap exceeds 1/50). -/
theorem worked_scenario_not_0198 :
    calculate_difficulty_score 1200 0 (1/2) 0 false ("middlegame", 1/2) (1/2)
        ["e4"] false false = some (11/50) ∧
      1/50 < |(11 : ℚ)/50 - 198/1000| := by
  constructor
  · norm_num [calculate_difficulty_score, phase_adjusted, final_adjusted, apply_frequency,
      apply_children, apply_tactical, clamp01]
    exact ⟨11/50, by simp, by rw [min_eq_right (by norm_num), max_eq_right (by norm_num)]⟩
  · rw [abs_of_pos] <;> norm_num

/-- C3 (amended): the worked scenario evaluates to exactly 0.22 — the
win-rate factor there is `0.8 + 0.2·1.0 = 1.0`, not 0.9. -/
theorem worked_scenario_value :
    calculate_difficulty_score 1200 0 (1/2) 0 false ("middlegame", 1/2) (1/2)
      ["e4"] false false = some (11/50) := by
  norm_num [calculate_difficulty_score, phase_adjusted, final_adjusted, apply_frequency,
    apply_children, apply_tactical, clamp01]
  exact ⟨11/50, by simp, by rw [min_eq_right (by norm_num), max_eq_right (by norm_num)]⟩

/-- C5 counterexample: with five white queens and nothing else, rule 1 fails,
total material is 45 ≥ 30, and the returned opening progress is −1/2 < 0 —
the code only clamps from above. -/
theorem game_phase_negative_progress :
    determine_game_phase ⟨0, 0, 0, 0, 5, 0, 0, 0, 0, 0, 0, 0⟩ = ("opening", -(1/2)) ∧
      (-(1/2) : ℚ) < 0 := by
  constructor
  · norm_num [determine_game_phase, total_pieces, total_material, white_material,
      black_material]
  · norm_num

/-- C5 (amended): when rule 1 does not apply and total material is ≥ 30, the
phase is `opening` with progress `min 1 ((40 − total)/10)` — clamped above at
1 but not below at 0. -/
theorem game_phase_opening_progress (pc : PieceCounts)
    (h1 : ¬(12 ≤ total_pieces pc ∧ 1 ≤ pc.Q ∧ 1 ≤ pc.q))
    (h2 : 30 ≤ total_material pc) :
    determine_game_phase pc = ("opening", min 1 ((40 - total_material pc) / 10)) := by
  unfold determine_game_phase
  rw [if_neg h1, if_pos h2]

/-- Witness for the amended C5 theorem: four white queens give total material
36 and progress `min 1 (4/10) = 2/5`. -/
theorem game_phase_opening_progress_witness :
    determine_game_phase ⟨0, 0, 0, 0, 4, 0, 0, 0, 0, 0, 0, 0⟩ =
      ("opening", min 1 ((40 - total_material ⟨0, 0, 0, 0, 4, 0, 0, 0, 0, 0, 0, 0⟩) / 10)) :=
  game_phase_opening_progress ⟨0, 0, 0, 0, 4, 0, 0, 0, 0, 0, 0, 0⟩
    (by norm_num [total_pieces])
    (by norm_num [total_material, white_material, black_material])

/-- The complexity blend exactly as the specification words it. -/
def complexity_blend_spec (pc : PieceCounts) : ℚ :=
  let pieceComplexity :=
    (((pc.N : ℚ) + pc.B + pc.n + pc.b) * 0.7 + ((pc.R : ℚ) + pc.Q + pc.r + pc.q) * 1.2 +
      ((pc.P : ℚ) + pc.p) * 0.4) / 20
  let materialImbalance := |white_material pc - black_material pc| / 32
  let queenBonus : ℚ := if 0 < pc.Q ∨ 0 < pc.q then 0.2 else 0
  0.6 * pieceComplexity + 0.2 * (1 - materialImbalance) + queenBonus

/-- C6 counterexample: twenty white queens drive the blend to −1/200 < 0; the
code clamps only from above, so the result is negative. -/
theorem position_complexity_negative :
    calculate_position_complexity ⟨0, 0, 0, 0, 20, 0, 0, 0, 0, 0, 0, 0⟩ = -(1/200) ∧
      (-(1/200) : ℚ) < 0 := by
  constructor
  · norm_num [calculate_position_complexity, white_material, black_material]
  · norm_num

/-- C6 (amended): the returned complexity is `min 1` of the spec's blend —
never above 1, but with no lower clamp (it can be negative). -/
theorem position_complexity_blend (pc : PieceCounts) :
    calculate_position_complexity pc = min 1 (complexity_blend_spec pc) ∧
      calculate_position_complexity pc ≤ 1 := by
  constructor
  · unfold calculate_position_complexity complexity_blend_spec
    ring_nf
  · unfold calculate_position_complexity
    exact min_le_left _ _

/-! Lemmas about the stratifier. -/

lemma slice_levels_spec (sorted : List ScoredMove) (ps : List Nat) :
    ∀ start, start ≤ sorted.length →
      (slice_levels sorted sorted.length ps start).1.length = ps.length ∧
      start ≤ (slice_levels sorted sorted.length ps start).2 ∧
      (slice_levels sorted sorted.length ps start).2 ≤ sorted.length ∧
      (slice_levels sorted sorted.length ps start).1.flatten ++
        sorted.drop (slice_levels sorted sorted.length ps start).2 = sorted.drop start := by
  induction ps with
  | nil =>
    intro start h
    simp only [slice_levels]
    exact ⟨rfl, le_refl _, h, by simp⟩
  | cons p ps ih =>
    intro start h
    have hstart_le : start ≤ min (start + p * sorted.length / 100) sorted.length :=
      le_min (Nat.le_add_right _ _) h
    have hend_le : min (start + p * sorted.length / 100) sorted.length ≤ sorted.length :=
      min_le_right _ _
    obtain ⟨ihlen, ihstart, ihle, ihflat⟩ := ih _ hend_le
    refine ⟨by simp [slice_levels, ihlen], ?_, ?_, ?_⟩
    · simpa [slice_levels] using le_trans hstart_le ihstart
    · simpa [slice_levels] using ihle
    · simp only [slice_levels, List.flatten_cons, List.append_assoc]
      rw [ihflat]
      have h2 : (sorted.drop start).drop
          (min (start + p * sorted.length / 100) sorted.length - start) =
          sorted.drop (min (start + p * sorted.length / 100) sorted.length) := by
        rw [List.drop_drop]
        congr 1
        omega
      rw [← h2, List.take_append_drop]

lemma extendLast_length (ls : List (List ScoredMove)) (extra : List ScoredMove)
    (h : ls ≠ []) : (extendLast ls extra).length = ls.length := by
  induction ls with
  | nil => exact absurd rfl h
  | cons l ls ih =>
    cases ls with
    | nil => simp [extendLast]
    | cons l2 ls2 =>
      simp only [extendLast, List.length_cons]
      rw [ih (by simp)]
      simp

lemma extendLast_flatten (ls : List (List ScoredMove)) (extra : List ScoredMove)
    (h : ls ≠ []) : (extendLast ls extra).flatten = ls.flatten ++ extra := by
  induction ls with
  | nil => exact absurd rfl h
  | cons l ls ih =>
    cases ls with
    | nil => simp [extendLast]
    | cons l2 ls2 =>
      simp only [extendLast, List.flatten_cons]
      rw [ih (by simp)]
      simp [List.append_assoc]

lemma categorize_levels_spec (moves : List ScoredMove) :
    (categorize_moves_by_difficulty moves).length = 8 ∧
      (categorize_moves_by_difficulty moves).flatten = sortByDifficulty moves := by
  unfold categorize_moves_by_difficulty
  split_ifs with h0 hrem
  · have hempty : sortByDifficulty moves = [] := List.length_eq_zero.1 h0
    rw [hempty]
    exact ⟨rfl, rfl⟩
  · obtain ⟨hlen, hstart, hle, hflat⟩ :=
      slice_levels_spec (sortByDifficulty moves) level_percentages 0 (Nat.zero_le _)
    have hne : (slice_levels (sortByDifficulty moves) (sortByDifficulty moves).length
        level_percentages 0).1 ≠ [] := by
      intro hnil
      rw [hnil] at hlen
      simp [level_percentages] at hlen
    constructor
    · rw [extendLast_length _ _ hne, hlen]
      rfl
    · rw [extendLast_flatten _ _ hne, hflat]
      simp
  · obtain ⟨hlen, hstart, hle, hflat⟩ :=
      slice_levels_spec (sortByDifficulty moves) level_percentages 0 (Nat.zero_le _)
    have heq : (slice_levels (sortByDifficulty moves) (sortByDifficulty moves).length
        level_percentages 0).2 = (sortByDifficulty moves).length := by omega
    rw [heq, List.drop_length, List.append_nil] at hflat
    rw [hflat]
    exact ⟨by rw [hlen]; rfl, by simp⟩

/-- C1: the stratifier returns exactly eight tiers whose sizes sum to the
population size; their concatenation in tier order is the population sorted
ascending by difficulty — no move lost or duplicated (a permutation of the
input, pairwise sorted) — and an empty input yields eight empty tiers. -/
theorem categorize_partition (moves : List ScoredMove) :
    (categorize_moves_by_difficulty moves).length = 8 ∧
      ((categorize_moves_by_difficulty moves).map List.length).sum = moves.length ∧
      (categorize_moves_by_difficulty moves).flatten = sortByDifficulty moves ∧
      List.Perm (categorize_moves_by_difficulty moves).flatten moves ∧
      List.Pairwise (fun a b : ScoredMove => a.difficulty ≤ b.difficulty)
        (categorize_moves_by_difficulty moves).flatten ∧
      (moves = [] → categorize_moves_by_difficulty moves = List.replicate 8 []) := by
  obtain ⟨hlen, hflat⟩ := categorize_levels_spec moves
  have hperm : List.Perm (sortByDifficulty moves) moves := List.mergeSort_perm moves _
  refine ⟨hlen, ?_, hflat, ?_, ?_, ?_⟩
  · rw [← List.length_flatten, hflat]
    exact hperm.length_eq
  · rw [hflat]
    exact hperm
  · rw [hflat]
    have hs := @List.sorted_mergeSort ScoredMove
      (fun a b : ScoredMove => decide (a.difficulty ≤ b.difficulty))
      (fun a b c hab hbc => by
        simp only [decide_eq_true_eq] at *
        exact le_trans hab hbc)
      (fun a b => by
        simp only [Bool.or_eq_true, decide_eq_true_eq]
        exact le_total _ _)
      moves
    exact hs.imp (fun hab => by simpa using hab)
  · intro h
    subst h
    simp [categorize_moves_by_difficulty, sortByDifficulty]

/-- C9: any population of exactly 17 scored moves is split with floor sizes
`[0,1,2,3,3,2,1,0]` and the 5 leftover moves all appended to the 8th tier,
giving tier sizes `[0,1,2,3,3,2,1,5]`. -/
theorem categorize_seventeen (moves : List ScoredMove) (h : moves.length = 17) :
    (categorize_moves_by_difficulty moves).map List.length = [0, 1, 2, 3, 3, 2, 1, 5] := by
  have hs : (sortByDifficulty moves).length = 17 := by
    unfold sortByDifficulty
    rw [List.length_mergeSort]
    exact h
  unfold categorize_moves_by_difficulty
  rw [hs]
  norm_num [level_percentages, slice_levels, extendLast]
  simp [List.length_take, List.length_drop, hs]

/-- Witness for C9 at a concrete 17-move population. -/
theorem categorize_seventeen_witness :
    (categorize_moves_by_difficulty (List.replicate 17
        { move := "e4", path := [], difficulty := 0, rating := 1200, times_played := 0,
          win_rate := 1/2, depth := 0, game_phase := "unknown", phase_progress := 1/2,
          position_complexity := 1/2, move_data := .mk [] none none,
          move_sequence := ["e4"] })).map List.length = [0, 1, 2, 3, 3, 2, 1, 5] :=
  categorize_seventeen _ (by simp)

/-! Association-list and tree-path helper lemmas. -/

lemma lookupMove_mem {l : List (String × Node)} {k : String} {c : Node}
    (h : lookupMove l k = some c) : (k, c) ∈ l := by
  induction l with
  | nil => simp [lookupMove] at h
  | cons x rest ih =>
    obtain ⟨key, child⟩ := x
    by_cases hk : key = k
    · subst hk
      simp [lookupMove] at h
      simp [h]
    · rw [lookupMove, if_neg hk] at h
      exact List.mem_cons_of_mem _ (ih h)

lemma lookupMove_of_mem_nodup {l : List (String × Node)} {k : String} {c : Node}
    (hmem : (k, c) ∈ l) (hnd : (l.map Prod.fst).Nodup) : lookupMove l k = some c := by
  induction l with
  | nil => simp at hmem
  | cons x rest ih =>
    obtain ⟨key, child⟩ := x
    rcases List.mem_cons.1 hmem with heq | htail
    · injection heq with h1 h2
      subst h1
      subst h2
      simp [lookupMove]
    · rw [List.map_cons, List.nodup_cons] at hnd
      have hk : key ≠ k := by
        intro hkk
        subst hkk
        exact hnd.1 (List.mem_map.2 ⟨(key, c), htail, rfl⟩)
      rw [lookupMove, if_neg hk]
      exact ih htail hnd.2

lemma mem_unique_of_nodup {l : List (String × Node)} {k : String} {c c' : Node}
    (hnd : (l.map Prod.fst).Nodup) (h1 : (k, c) ∈ l) (h2 : (k, c') ∈ l) : c = c' := by
  have e1 := lookupMove_of_mem_nodup h1 hnd
  have e2 := lookupMove_of_mem_nodup h2 hnd
  rw [e1] at e2
  injection e2

lemma wfListB_spec {l : List (String × Node)} (h : wfListB l = true) :
    ∀ {k : String} {c : Node}, (k, c) ∈ l → c.wfB = true := by
  induction l with
  | nil => intro k c hm; simp at hm
  | cons x rest ih =>
    obtain ⟨key, child⟩ := x
    rw [wfListB] at h
    obtain ⟨hchild, hrest⟩ := Bool.and_eq_true_iff.1 h
    intro k c hm
    rcases List.mem_cons.1 hm with heq | htail
    · injection heq with h1 h2
      subst h2
      exact hchild
    · exact ih hrest htail

lemma wfB_nodup {n : Node} (h : n.wfB = true) : (n.moves.map Prod.fst).Nodup := by
  rw [Node.wfB] at h
  exact of_decide_eq_true (Bool.and_eq_true_iff.1 h).1

lemma wfB_child {n : Node} (h : n.wfB = true) {k : String} {c : Node}
    (hmem : (k, c) ∈ n.moves) : c.wfB = true := by
  rw [Node.wfB] at h
  exact wfListB_spec (Bool.and_eq_true_iff.1 h).2 hmem

lemma containsMovePath_nil (n : Node) (v : String) :
    containsMovePath n [] v = (lookupMove n.moves v).isSome := rfl

lemma nodeAtPath_cons (n : Node) (s : String) (rest : List String) :
    nodeAtPath n (s :: rest) =
      match lookupMove n.moves s with
      | some c => nodeAtPath c rest
      | none => none := rfl

lemma containsMovePath_cons (n : Node) (s : String) (r : List String) (v : String) :
    containsMovePath n (s :: r) v =
      match lookupMove n.moves s with
      | some c => containsMovePath c r v
      | none => false := by
  unfold containsMovePath
  rw [nodeAtPath_cons]
  cases h : lookupMove n.moves s <;> simp

lemma nodeAtPath_append (n : Node) (a b : List String) :
    nodeAtPath n (a ++ b) = (nodeAtPath n a).bind (fun u => nodeAtPath u b) := by
  induction a generalizing n with
  | nil => rfl
  | cons s rest ih =>
    rw [List.cons_append, nodeAtPath_cons, nodeAtPath_cons]
    cases h : lookupMove n.moves s with
    | none => rfl
    | some c => simp [ih c]

lemma containsMovePath_append (n : Node) (a b : List String) (v : String) :
    containsMovePath n (a ++ b) v =
      match nodeAtPath n a with
      | some u => containsMovePath u b v
      | none => false := by
  unfold containsMovePath
  rw [nodeAtPath_append]
  rcases nodeAtPath n a with _ | u <;> rfl

lemma containsMovePath_empty_moves (st : Option Stats) (pos : Option String)
    (r : List String) (v : String) : containsMovePath (.mk [] st pos) r v = false := by
  cases r with
  | nil => rfl
  | cons s rest => rfl

/-! Walker characterization lemmas. -/

@[simp] lemma mkScoredMove_move (d : Nat) (p seq : List String) (gp : String × ℚ) (cx : ℚ)
    (k : String) (c : Node) : (mkScoredMove d p seq gp cx k c).move = k := rfl

@[simp] lemma mkScoredMove_path (d : Nat) (p seq : List String) (gp : String × ℚ) (cx : ℚ)
    (k : String) (c : Node) : (mkScoredMove d p seq gp cx k c).path = p := rfl

@[simp] lemma mkScoredMove_move_data (d : Nat) (p seq : List String) (gp : String × ℚ)
    (cx : ℚ) (k : String) (c : Node) : (mkScoredMove d p seq gp cx k c).move_data = c := rfl

@[simp] lemma mkScoredMove_game_phase (d : Nat) (p seq : List String) (gp : String × ℚ)
    (cx : ℚ) (k : String) (c : Node) : (mkScoredMove d p seq gp cx k c).game_phase = gp.1 := rfl

@[simp] lemma mkScoredMove_position_complexity (d : Nat) (p seq : List String)
    (gp : String × ℚ) (cx : ℚ) (k : String) (c : Node) :
    (mkScoredMove d p seq gp cx k c).position_complexity = cx := rfl

lemma sizeOf_child_lt {n : Node} {k : String} {c : Node} (h : (k, c) ∈ n.moves) :
    sizeOf c < sizeOf n := by
  obtain ⟨m, s, p⟩ := n
  have h1 := List.sizeOf_lt_of_mem h
  simp only [Node.moves] at h1
  simp only [Node.mk.sizeOf_spec, Prod.mk.sizeOf_spec] at *
  omega

lemma analyze_unfold (n : Node) (d : Nat) (p : List String) (pos : Option String)
    (seq : List String) :
    analyze_move_difficulty n d p pos seq =
      analyze_moves_list n.moves d p seq (node_phase_complexity pos n).1
        (node_phase_complexity pos n).2 := by
  conv_lhs => rw [analyze_move_difficulty]

lemma mem_analyze_moves_list {m : ScoredMove} (l : List (String × Node)) (d : Nat)
    (p seq : List String) (gp : String × ℚ) (cx : ℚ) :
    m ∈ analyze_moves_list l d p seq gp cx ↔
      ∃ k c, (k, c) ∈ l ∧
        (m = mkScoredMove d p seq gp cx k c ∨
          m ∈ analyze_move_difficulty c (d + 1) (p ++ [k]) (ownPosRaw c) (seq ++ [k])) := by
  induction l with
  | nil => simp [analyze_moves_list]
  | cons x rest ih =>
    obtain ⟨k0, c0⟩ := x
    rw [analyze_moves_list]
    simp only [List.cons_append, List.mem_cons, List.mem_append, ih]
    constructor
    · rintro (h | h | h)
      · exact ⟨k0, c0, Or.inl rfl, Or.inl h⟩
      · exact ⟨k0, c0, Or.inl rfl, Or.inr h⟩
      · obtain ⟨k, c, hkc, hmc⟩ := h
        exact ⟨k, c, Or.inr hkc, hmc⟩
    · rintro ⟨k, c, hkc | hkc, hmc⟩
      · injection hkc with h1 h2
        subst h1
        subst h2
        rcases hmc with h | h
        · exact Or.inl h
        · exact Or.inr (Or.inl h)
      · exact Or.inr (Or.inr ⟨k, c, hkc, hmc⟩)

lemma mem_analyze (n : Node) (d : Nat) (p : List String) (pos : Option String)
    (seq : List String) {m : ScoredMove} :
    m ∈ analyze_move_difficulty n d p pos seq ↔
      ∃ k c, (k, c) ∈ n.moves ∧
        (m = mkScoredMove d p seq (node_phase_complexity pos n).1
            (node_phase_complexity pos n).2 k c ∨
          m ∈ analyze_move_difficulty c (d + 1) (p ++ [k]) (ownPosRaw c) (seq ++ [k])) := by
  rw [analyze_unfold, mem_analyze_moves_list]

lemma analyze_path_prefix_aux :
    ∀ (sz : Nat) (n : Node), sizeOf n ≤ sz →
      ∀ (d : Nat) (p : List String) (pos : Option String) (seq : List String)
        (m : ScoredMove), m ∈ analyze_move_difficulty n d p pos seq →
          ∃ r, m.path = p ++ r := by
  intro sz
  induction sz with
  | zero =>
    intro n hsz
    obtain ⟨mv, s, q⟩ := n
    simp [Node.mk.sizeOf_spec] at hsz
  | succ szk ih =>
    intro n hsz d p pos seq m hm
    rcases (mem_analyze n d p pos seq).1 hm with ⟨k, c, hkc, (heq | hrec)⟩
    · exact ⟨[], by rw [heq, mkScoredMove_path, List.append_nil]⟩
    · have hc : sizeOf c ≤ szk := by
        have := sizeOf_child_lt hkc
        omega
      obtain ⟨r, hr⟩ := ih c hc (d + 1) (p ++ [k]) (ownPosRaw c) (seq ++ [k]) m hrec
      exact ⟨k :: r, by rw [hr, List.append_assoc]; rfl⟩

lemma analyze_path_prefix {n : Node} {d : Nat} {p : List String} {pos : Option String}
    {seq : List String} {m : ScoredMove} (hm : m ∈ analyze_move_difficulty n d p pos seq) :
    ∃ r, m.path = p ++ r :=
  analyze_path_prefix_aux (sizeOf n) n (le_refl _) d p pos seq m hm

lemma analyze_own_level {n : Node} {d : Nat} {p : List String} {pos : Option String}
    {seq : List String} {m : ScoredMove} (hm : m ∈ analyze_move_difficulty n d p pos seq)
    (hp : m.path = p) :
    ∃ k c, (k, c) ∈ n.moves ∧
      m = mkScoredMove d p seq (node_phase_complexity pos n).1
        (node_phase_complexity pos n).2 k c := by
  rcases (mem_analyze n d p pos seq).1 hm with ⟨k, c, hkc, heq | hrec⟩
  · exact ⟨k, c, hkc, heq⟩
  · exfalso
    obtain ⟨r, hr⟩ := analyze_path_prefix hrec
    rw [hp] at hr
    have hlen := congrArg List.length hr
    simp at hlen

lemma analyze_data_consistent_aux :
    ∀ (sz : Nat) (n : Node), sizeOf n ≤ sz → n.wfB = true →
      ∀ (d : Nat) (p : List String) (pos : Option String) (seq : List String)
        (m : ScoredMove), m ∈ analyze_move_difficulty n d p pos seq →
          ∃ r, m.path = p ++ r ∧ nodeAtPath n (r ++ [m.move]) = some m.move_data := by
  intro sz
  induction sz with
  | zero =>
    intro n hsz
    obtain ⟨mv, s, q⟩ := n
    simp [Node.mk.sizeOf_spec] at hsz
  | succ szk ih =>
    intro n hsz hwf d p pos seq m hm
    rcases (mem_analyze n d p pos seq).1 hm with ⟨k, c, hkc, heq | hrec⟩
    · refine ⟨[], by rw [heq, mkScoredMove_path, List.append_nil], ?_⟩
      rw [heq]
      simp only [mkScoredMove_move, mkScoredMove_move_data, List.nil_append]
      rw [nodeAtPath_cons, lookupMove_of_mem_nodup hkc (wfB_nodup hwf)]
      rfl
    · have hc : sizeOf c ≤ szk := by
        have := sizeOf_child_lt hkc
        omega
      obtain ⟨r, hpath, hdata⟩ :=
        ih c hc (wfB_child hwf hkc) (d + 1) (p ++ [k]) (ownPosRaw c) (seq ++ [k]) m hrec
      refine ⟨k :: r, by rw [hpath, List.append_assoc]; rfl, ?_⟩
      rw [List.cons_append, nodeAtPath_cons, lookupMove_of_mem_nodup hkc (wfB_nodup hwf)]
      exact hdata

lemma analyze_data_consistent {n : Node} (hwf : n.wfB = true) {d : Nat} {p : List String}
    {pos : Option String} {seq : List String} {m : ScoredMove}
    (hm : m ∈ analyze_move_difficulty n d p pos seq) :
    ∃ r, m.path = p ++ r ∧ nodeAtPath n (r ++ [m.move]) = some m.move_data :=
  analyze_data_consistent_aux (sizeOf n) n (le_refl _) hwf d p pos seq m hm

lemma analyze_complete_aux :
    ∀ (sz : Nat) (n : Node), sizeOf n ≤ sz →
      ∀ (r : List String) (v : String), containsMovePath n r v = true →
        ∀ (d : Nat) (p : List String) (pos : Option String) (seq : List String),
          ∃ m ∈ analyze_move_difficulty n d p pos seq, m.path = p ++ r ∧ m.move = v := by
  intro sz
  induction sz with
  | zero =>
    intro n hsz
    obtain ⟨mv, s, q⟩ := n
    simp [Node.mk.sizeOf_spec] at hsz
  | succ szk ih =>
    intro n hsz r v hcont d p pos seq
    cases r with
    | nil =>
      rw [containsMovePath_nil] at hcont
      obtain ⟨c, hc⟩ := Option.isSome_iff_exists.1 hcont
      refine ⟨mkScoredMove d p seq (node_phase_complexity pos n).1
        (node_phase_complexity pos n).2 v c, ?_, by simp⟩
      exact (mem_analyze n d p pos seq).2 ⟨v, c, lookupMove_mem hc, Or.inl rfl⟩
    | cons s rtail =>
      rw [containsMovePath_cons] at hcont
      cases hl : lookupMove n.moves s with
      | none => rw [hl] at hcont; cases hcont
      | some c =>
        rw [hl] at hcont
        have hmem := lookupMove_mem hl
        have hc : sizeOf c ≤ szk := by
          have := sizeOf_child_lt hmem
          omega
        obtain ⟨m, hmmem, hmpath, hmmove⟩ :=
          ih c hc rtail v hcont (d + 1) (p ++ [s]) (ownPosRaw c) (seq ++ [s])
        refine ⟨m, (mem_analyze n d p pos seq).2 ⟨s, c, hmem, Or.inr hmmem⟩, ?_, hmmove⟩
        rw [hmpath, List.append_assoc]
        rfl

lemma analyze_complete {n : Node} {r : List String} {v : String}
    (hcont : containsMovePath n r v = true) (d : Nat) (p : List String)
    (pos : Option String) (seq : List String) :
    ∃ m ∈ analyze_move_difficulty n d p pos seq, m.path = p ++ r ∧ m.move = v :=
  analyze_complete_aux (sizeOf n) n (le_refl _) r v hcont d p pos seq

/-! Lemmas about dictionary assignment and tree insertion. -/

@[simp] lemma Node_moves_mk (mv : List (String × Node)) (st : Option Stats)
    (ps : Option String) : (Node.mk mv st ps).moves = mv := rfl

@[simp] lemma Node_stats_mk (mv : List (String × Node)) (st : Option Stats)
    (ps : Option String) : (Node.mk mv st ps).stats = st := rfl

@[simp] lemma Node_position_mk (mv : List (String × Node)) (st : Option Stats)
    (ps : Option String) : (Node.mk mv st ps).position = ps := rfl

lemma lookupMove_map_set {l : List (String × Node)} {k : String} {v : Node}
    (h : l.any (fun x => x.1 = k) = true) :
    lookupMove (l.map (fun x => if x.1 = k then (k, v) else x)) k = some v := by
  induction l with
  | nil => simp at h
  | cons x rest ih =>
    obtain ⟨key, c⟩ := x
    rw [List.map_cons]
    by_cases hk : key = k
    · subst hk
      rw [show (if ((key, c) : String × Node).1 = key then (key, v) else (key, c)) = (key, v)
          from if_pos rfl]
      rw [lookupMove, if_pos rfl]
    · rw [show (if ((key, c) : String × Node).1 = k then (k, v) else (key, c)) = (key, c)
          from if_neg hk]
      rw [lookupMove, if_neg hk]
      apply ih
      simpa [hk] using h

lemma lookupMove_map_set_other {l : List (String × Node)} {k k' : String} (hne : k' ≠ k)
    (v : Node) :
    lookupMove (l.map (fun x => if x.1 = k then (k, v) else x)) k' = lookupMove l k' := by
  induction l with
  | nil => rfl
  | cons x rest ih =>
    obtain ⟨key, c⟩ := x
    rw [List.map_cons]
    by_cases hk : key = k
    · subst hk
      rw [show (if ((key, c) : String × Node).1 = key then (key, v) else (key, c)) = (key, v)
          from if_pos rfl]
      rw [lookupMove, lookupMove, if_neg (fun hh => hne hh.symm),
        if_neg (fun hh => hne hh.symm)]
      exact ih
    · rw [show (if ((key, c) : String × Node).1 = k then (k, v) else (key, c)) = (key, c)
          from if_neg hk]
      rw [lookupMove, lookupMove]
      by_cases hk2 : key = k'
      · rw [if_pos hk2, if_pos hk2]
      · rw [if_neg hk2, if_neg hk2]
        exact ih

lemma lookupMove_append (l1 l2 : List (String × Node)) (k : String) :
    lookupMove (l1 ++ l2) k =
      match lookupMove l1 k with
      | some c => some c
      | none => lookupMove l2 k := by
  induction l1 with
  | nil => rfl
  | cons x rest ih =>
    obtain ⟨key, c⟩ := x
    by_cases hk : key = k
    · simp [lookupMove, if_pos hk]
    · simp only [List.cons_append, lookupMove, if_neg hk]
      exact ih

lemma lookupMove_of_any_false {l : List (String × Node)} {k : String}
    (h : l.any (fun x => x.1 = k) = false) : lookupMove l k = none := by
  induction l with
  | nil => rfl
  | cons x rest ih =>
    obtain ⟨key, c⟩ := x
    simp only [List.any_cons, Bool.or_eq_false_iff] at h
    rw [lookupMove, if_neg (by simpa using h.1)]
    exact ih h.2

lemma lookup_set_self (l : List (String × Node)) (k : String) (v : Node) :
    lookupMove (setMoveList l k v) k = some v := by
  unfold setMoveList
  split_ifs with h
  · exact lookupMove_map_set h
  · rw [lookupMove_append, lookupMove_of_any_false (Bool.not_eq_true _ ▸ h)]
    simp [lookupMove]

lemma lookup_set_other (l : List (String × Node)) (k : String) (v : Node) {k' : String}
    (hne : k' ≠ k) : lookupMove (setMoveList l k v) k' = lookupMove l k' := by
  unfold setMoveList
  split_ifs with h
  · exact lookupMove_map_set_other hne v
  · rw [lookupMove_append]
    cases hl : lookupMove l k' with
    | some c => rfl
    | none => simp [lookupMove, Ne.symm hne]

lemma contains_of_nodeAt {t : Node} {A : List String} {u : Node} {V : String} {c : Node}
    (hu : nodeAtPath t A = some u) (hl : lookupMove u.moves V = some c) :
    containsMovePath t A V = true := by
  unfold containsMovePath
  rw [hu]
  simp [hl]

lemma nodeAt_snoc_decomp {t : Node} {A : List String} {V : String} {data : Node}
    (h : nodeAtPath t (A ++ [V]) = some data) :
    ∃ u, nodeAtPath t A = some u ∧ lookupMove u.moves V = some data := by
  rw [nodeAtPath_append] at h
  cases hu : nodeAtPath t A with
  | none => rw [hu] at h; cases h
  | some u =>
    rw [hu] at h
    simp only [Option.some_bind] at h
    rw [nodeAtPath_cons] at h
    cases hl : lookupMove u.moves V with
    | none => rw [hl] at h; cases h
    | some c =>
      rw [hl] at h
      refine ⟨u, rfl, ?_⟩
      rw [hl]
      exact h

lemma contains_append_of_nodeAt {t : Node} {A : List String} {data : Node}
    (h : nodeAtPath t A = some data) (r : List String) (v : String) :
    containsMovePath t (A ++ r) v = containsMovePath data r v := by
  rw [containsMovePath_append, h]

lemma contains_build {T : Node} {s : String} {c : Node} (hl : lookupMove T.moves s = some c)
    {r : List String} {v : String} (h : containsMovePath c r v = true) :
    containsMovePath T (s :: r) v = true := by
  rw [containsMovePath_cons, hl]
  exact h

lemma contains_cons_elim {T : Node} {s : String} {r : List String} {v : String}
    (h : containsMovePath T (s :: r) v = true) :
    ∃ c, lookupMove T.moves s = some c ∧ containsMovePath c r v = true := by
  rw [containsMovePath_cons] at h
  cases hl : lookupMove T.moves s with
  | none => rw [hl] at h; cases h
  | some c => rw [hl] at h; exact ⟨c, rfl, h⟩

lemma contains_placeholder (r : List String) (v : String) :
    containsMovePath placeholderNode r v = false :=
  containsMovePath_empty_moves _ _ r v

lemma nodeAt_append_left {t : Node} {X Y : List String} {d : Node}
    (h : nodeAtPath t (X ++ Y) = some d) :
    ∃ w, nodeAtPath t X = some w ∧ nodeAtPath w Y = some d := by
  rw [nodeAtPath_append] at h
  cases hx : nodeAtPath t X with
  | none => rw [hx] at h; cases h
  | some w =>
    rw [hx] at h
    exact ⟨w, rfl, by simpa using h⟩

lemma insertAtPath_cons_eq (T : Node) (s : String) (rest : List String) (v : String)
    (data : Node) :
    insertAtPath T (s :: rest) v data =
      .mk (setMoveList T.moves s (insertAtPath
          (match lookupMove T.moves s with | some c => c | none => placeholderNode)
          rest v data))
        T.stats T.position := rfl

/-- Inserting a consistent move into a tree whose contents are all valid in
the source tree `t` adds the move, preserves all previously present moves,
and keeps every content valid in `t`. -/
lemma insert_spec (t : Node) :
    ∀ (P : List String) (T : Node) (A : List String) (V : String) (data : Node),
      nodeAtPath t (A ++ (P ++ [V])) = some data →
      (∀ r v, containsMovePath T r v = true → containsMovePath t (A ++ r) v = true) →
      containsMovePath (insertAtPath T P V data) P V = true ∧
      (∀ r v, containsMovePath T r v = true →
        containsMovePath (insertAtPath T P V data) r v = true) ∧
      (∀ r v, containsMovePath (insertAtPath T P V data) r v = true →
        containsMovePath t (A ++ r) v = true) := by
  intro P
  induction P with
  | nil =>
    intro T A V data hdata hinv
    rw [List.nil_append] at hdata
    obtain ⟨u, hu, hlu⟩ := nodeAt_snoc_decomp hdata
    refine ⟨?_, ?_, ?_⟩
    · rw [containsMovePath_nil]
      simp only [insertAtPath, Node_moves_mk]
      rw [lookup_set_self]
      rfl
    · intro r v hr
      cases r with
      | nil =>
        rw [containsMovePath_nil] at hr ⊢
        simp only [insertAtPath, Node_moves_mk]
        by_cases hv : v = V
        · subst hv
          rw [lookup_set_self]
          rfl
        · rw [lookup_set_other _ _ _ hv]
          exact hr
      | cons s rt =>
        obtain ⟨c, hlc, hcr⟩ := contains_cons_elim hr
        by_cases hs : s = V
        · subst hs
          have h2 : containsMovePath t ((A ++ [s]) ++ rt) v = true := by
            rw [List.append_assoc]
            exact hinv _ _ hr
          rw [contains_append_of_nodeAt hdata] at h2
          refine contains_build ?_ h2
          simp only [insertAtPath, Node_moves_mk]
          exact lookup_set_self _ _ _
        · refine contains_build ?_ hcr
          simp only [insertAtPath, Node_moves_mk]
          rw [lookup_set_other _ _ _ hs]
          exact hlc
    · intro r v hr
      cases r with
      | nil =>
        rw [containsMovePath_nil] at hr
        simp only [insertAtPath, Node_moves_mk] at hr
        by_cases hv : v = V
        · subst hv
          rw [List.append_nil]
          exact contains_of_nodeAt hu hlu
        · rw [lookup_set_other _ _ _ hv] at hr
          exact hinv [] v (by rw [containsMovePath_nil]; exact hr)
      | cons s rt =>
        obtain ⟨c, hlc, hcr⟩ := contains_cons_elim hr
        simp only [insertAtPath, Node_moves_mk] at hlc
        by_cases hs : s = V
        · subst hs
          rw [lookup_set_self] at hlc
          injection hlc with hlc
          subst hlc
          have h2 : containsMovePath t ((A ++ [s]) ++ rt) v = true := by
            rw [contains_append_of_nodeAt hdata]
            exact hcr
          rw [List.append_assoc] at h2
          exact h2
        · rw [lookup_set_other _ _ _ hs] at hlc
          exact hinv _ _ (contains_build hlc hcr)
  | cons s Pt ih =>
    intro T A V data hdata hinv
    have hassoc : A ++ ((s :: Pt) ++ [V]) = (A ++ [s]) ++ (Pt ++ [V]) := by simp
    rw [hassoc] at hdata
    cases hc0 : lookupMove T.moves s with
    | some c0 =>
      have hinv0 : ∀ r v, containsMovePath c0 r v = true →
          containsMovePath t ((A ++ [s]) ++ r) v = true := by
        intro r v hcv
        rw [List.append_assoc]
        exact hinv _ _ (contains_build hc0 hcv)
      obtain ⟨ih1, ih2, ih3⟩ := ih c0 (A ++ [s]) V data hdata hinv0
      have hmoves : (insertAtPath T (s :: Pt) V data).moves =
          setMoveList T.moves s (insertAtPath c0 Pt V data) := by
        rw [insertAtPath_cons_eq, hc0]
        rfl
      refine ⟨?_, ?_, ?_⟩
      · refine contains_build ?_ ih1
        rw [hmoves]
        exact lookup_set_self _ _ _
      · intro r v hr
        cases r with
        | nil =>
          rw [containsMovePath_nil] at hr ⊢
          rw [hmoves]
          by_cases hv : v = s
          · subst hv
            rw [lookup_set_self]
            rfl
          · rw [lookup_set_other _ _ _ hv]
            exact hr
        | cons u rt =>
          obtain ⟨cold, hlold, hcold⟩ := contains_cons_elim hr
          by_cases hu : u = s
          · subst hu
            rw [hlold] at hc0
            injection hc0 with hc0
            subst hc0
            refine contains_build ?_ (ih2 _ _ hcold)
            rw [hmoves]
            exact lookup_set_self _ _ _
          · refine contains_build ?_ hcold
            rw [hmoves, lookup_set_other _ _ _ hu]
            exact hlold
      · intro r v hr
        cases r with
        | nil =>
          rw [containsMovePath_nil, hmoves] at hr
          by_cases hv : v = s
          · subst hv
            rw [List.append_nil]
            obtain ⟨w, hw, _⟩ := nodeAt_append_left hdata
            obtain ⟨u, hu, hlu⟩ := nodeAt_snoc_decomp hw
            exact contains_of_nodeAt hu hlu
          · rw [lookup_set_other _ _ _ hv] at hr
            exact hinv [] v (by rw [containsMovePath_nil]; exact hr)
        | cons u rt =>
          obtain ⟨cnew, hlnew, hcnew⟩ := contains_cons_elim hr
          rw [hmoves] at hlnew
          by_cases hu : u = s
          · subst hu
            rw [lookup_set_self] at hlnew
            injection hlnew with hlnew
            subst hlnew
            have h2 := ih3 _ _ hcnew
            rw [List.append_assoc] at h2
            exact h2
          · rw [lookup_set_other _ _ _ hu] at hlnew
            exact hinv _ _ (contains_build hlnew hcnew)
    | none =>
      have hinv0 : ∀ r v, containsMovePath placeholderNode r v = true →
          containsMovePath t ((A ++ [s]) ++ r) v = true := by
        intro r v hcv
        rw [contains_placeholder] at hcv
        cases hcv
      obtain ⟨ih1, ih2, ih3⟩ := ih placeholderNode (A ++ [s]) V data hdata hinv0
      have hmoves : (insertAtPath T (s :: Pt) V data).moves =
          setMoveList T.moves s (insertAtPath placeholderNode Pt V data) := by
        rw [insertAtPath_cons_eq, hc0]
        rfl
      refine ⟨?_, ?_, ?_⟩
      · refine contains_build ?_ ih1
        rw [hmoves]
        exact lookup_set_self _ _ _
      · intro r v hr
        cases r with
        | nil =>
          rw [containsMovePath_nil] at hr ⊢
          rw [hmoves]
          by_cases hv : v = s
          · subst hv
            rw [lookup_set_self]
            rfl
          · rw [lookup_set_other _ _ _ hv]
            exact hr
        | cons u rt =>
          obtain ⟨cold, hlold, hcold⟩ := contains_cons_elim hr
          by_cases hu : u = s
          · subst hu
            rw [hlold] at hc0
            cases hc0
          · refine contains_build ?_ hcold
            rw [hmoves, lookup_set_other _ _ _ hu]
            exact hlold
      · intro r v hr
        cases r with
        | nil =>
          rw [containsMovePath_nil, hmoves] at hr
          by_cases hv : v = s
          · subst hv
            rw [List.append_nil]
            obtain ⟨w, hw, _⟩ := nodeAt_append_left hdata
            obtain ⟨u, hu, hlu⟩ := nodeAt_snoc_decomp hw
            exact contains_of_nodeAt hu hlu
          · rw [lookup_set_other _ _ _ hv] at hr
            exact hinv [] v (by rw [containsMovePath_nil]; exact hr)
        | cons u rt =>
          obtain ⟨cnew, hlnew, hcnew⟩ := contains_cons_elim hr
          rw [hmoves] at hlnew
          by_cases hu : u = s
          · subst hu
            rw [lookup_set_self] at hlnew
            injection hlnew with hlnew
            subst hlnew
            have h2 := ih3 _ _ hcnew
            rw [List.append_assoc] at h2
            exact h2
          · rw [lookup_set_other _ _ _ hu] at hlnew
            exact hinv _ _ (contains_build hlnew hcnew)

/-- Folding a list of source-consistent moves into a tree: all previous
contents are preserved, every inserted move is present, and all contents stay
valid in the source tree. -/
lemma fold_insert_spec (t : Node) :
    ∀ (L : List ScoredMove) (T : Node),
      (∀ m ∈ L, nodeAtPath t (m.path ++ [m.move]) = some m.move_data) →
      (∀ r v, containsMovePath T r v = true → containsMovePath t r v = true) →
      (∀ r v, containsMovePath T r v = true →
        containsMovePath
          (L.foldl (fun acc m => insertAtPath acc m.path m.move m.move_data) T) r v = true) ∧
      (∀ m ∈ L, containsMovePath
          (L.foldl (fun acc m => insertAtPath acc m.path m.move m.move_data) T)
          m.path m.move = true) ∧
      (∀ r v, containsMovePath
          (L.foldl (fun acc m => insertAtPath acc m.path m.move m.move_data) T) r v = true →
        containsMovePath t r v = true) := by
  intro L
  induction L with
  | nil =>
    intro T _ hinv
    exact ⟨fun r v h => h, fun m hm => absurd hm (List.not_mem_nil m), hinv⟩
  | cons m L ihL =>
    intro T hcons hinv
    have hdata : nodeAtPath t ([] ++ (m.path ++ [m.move])) = some m.move_data := by
      rw [List.nil_append]
      exact hcons m (List.mem_cons_self m L)
    have hinvA : ∀ r v, containsMovePath T r v = true →
        containsMovePath t ([] ++ r) v = true := by
      intro r v h
      rw [List.nil_append]
      exact hinv r v h
    obtain ⟨i1, i2, i3⟩ := insert_spec t m.path T [] m.move m.move_data hdata hinvA
    have hinv1 : ∀ r v,
        containsMovePath (insertAtPath T m.path m.move m.move_data) r v = true →
        containsMovePath t r v = true := by
      intro r v h
      have := i3 r v h
      rwa [List.nil_append] at this
    obtain ⟨p1, p2, p3⟩ := ihL (insertAtPath T m.path m.move m.move_data)
      (fun m' hm' => hcons m' (List.mem_cons_of_mem _ hm')) hinv1
    rw [List.foldl_cons]
    refine ⟨fun r v h => p1 r v (i2 r v h), ?_, p3⟩
    intro m' hm'
    rcases List.mem_cons.1 hm' with heq | htail
    · subst heq
      exact p1 _ _ i1
    · exact p2 m' htail

lemma insertAtPath_stats (n : Node) (P : List String) (V : String) (data : Node) :
    (insertAtPath n P V data).stats = n.stats ∧
      (insertAtPath n P V data).position = n.position := by
  cases P <;> exact ⟨rfl, rfl⟩

/-- Inserting a move at a fresh path below a node with no children creates a
chain of placeholder intermediates: every nonempty strict prefix of the path
reaches a node carrying the zero-initialized placeholder stats. -/
lemma insert_fresh_prefix :
    ∀ (pfx q : List String) (st : Option Stats) (ps : Option String) (V : String)
      (data : Node), pfx ≠ [] →
      ∃ u, nodeAtPath (insertAtPath (.mk [] st ps) (pfx ++ q) V data) pfx = some u ∧
        u.stats = some { timesVisited := some 0 } ∧ u.position = none := by
  intro pfx
  induction pfx with
  | nil => intro q st ps V data h; exact absurd rfl h
  | cons s ptail ihp =>
    intro q st ps V data _
    rw [List.cons_append, insertAtPath_cons_eq]
    have hl : lookupMove (Node.mk [] st ps).moves s = none := rfl
    rw [hl]
    have hset : setMoveList (Node.mk [] st ps).moves s
        (insertAtPath placeholderNode (ptail ++ q) V data) =
        [(s, insertAtPath placeholderNode (ptail ++ q) V data)] := rfl
    rw [hset]
    cases ptail with
    | nil =>
      refine ⟨insertAtPath placeholderNode q V data, ?_, ?_, ?_⟩
      · rw [nodeAtPath_cons]
        simp only [lookupMove, if_pos rfl]
        rfl
      · exact (insertAtPath_stats placeholderNode q V data).1
      · exact (insertAtPath_stats placeholderNode q V data).2
    | cons s2 p2 =>
      obtain ⟨u, hu, hs, hp⟩ := ihp q (some { timesVisited := some 0 }) none V data (by simp)
      refine ⟨u, ?_, hs, hp⟩
      rw [nodeAtPath_cons]
      simp only [lookupMove, if_pos rfl]
      exact hu

/-! Concrete trees used in counterexamples and witnesses. -/

/-- A childless node with no stats and no position. -/
def emptyLeaf : Node := .mk [] none none

/-- Node holding one move, used as attached move data in the C7 scenario. -/
def c7data : Node := .mk [("e5", emptyLeaf)] none none

/-- Source tree for the C7 scenario: a single move `e4` whose subtree holds
`e5`. -/
def c7root : Node := .mk [("e4", c7data)] none none

/-- The walker record for the move `e4` of `c7root`, as a tier entry. -/
def c7move : ScoredMove :=
  { move := "e4", path := [], difficulty := 0, rating := 1200, times_played := 0,
    win_rate := 1/2, depth := 0, game_phase := "unknown", phase_progress := 1/2,
    position_complexity := 1/2, move_data := c7data, move_sequence := ["e4"] }

/-- C7 counterexample: the tier holds only the move `e4`, yet the rebuilt
tree also contains `e5` — the move's whole original subtree is attached, so
moves outside the tier appear in the tier tree. -/
theorem create_level_tree_extra_moves :
    containsMovePath (create_level_knowledge_tree [c7move]) ["e4"] "e5" = true ∧
      [c7move].map ScoredMove.move = ["e4"] :=
  ⟨rfl, rfl⟩

/-- C7 (amended): for every tier list consistent with a source tree, the
built tree contains every tier move at its original path (existing prefixes
are reused, never lost); and every missing intermediate node on a kept move's
path is created as a placeholder with zero-initialized stats.  (Each move's
entire original subtree is attached under its final key, so descendants
outside the tier may also appear — see the counterexample.) -/
theorem create_level_tree_props :
    (∀ (t : Node) (L : List ScoredMove),
      (∀ m ∈ L, nodeAtPath t (m.path ++ [m.move]) = some m.move_data) →
      ∀ m ∈ L, containsMovePath (create_level_knowledge_tree L) m.path m.move = true) ∧
    (∀ (P : List String) (V : String) (data : Node) (pfx q : List String),
      pfx ++ q = P → pfx ≠ [] →
      ∃ u, nodeAtPath (create_level_knowledge_tree
          [{ move := V, path := P, difficulty := 0, rating := 1200, times_played := 0,
             win_rate := 1/2, depth := 0, game_phase := "unknown", phase_progress := 1/2,
             position_complexity := 1/2, move_data := data, move_sequence := [V] }]) pfx
        = some u ∧ u.stats = some { timesVisited := some 0 } ∧ u.position = none) := by
  constructor
  · intro t L hcons m hm
    have hroot : ∀ r v, containsMovePath levelRootNode r v = true →
        containsMovePath t r v = true := by
      intro r v h
      have h2 : containsMovePath levelRootNode r v = false :=
        containsMovePath_empty_moves _ _ r v
      rw [h2] at h
      cases h
    obtain ⟨_, hcontains, _⟩ := fold_insert_spec t L levelRootNode hcons hroot
    exact hcontains m hm
  · intro P V data pfx q hpq hne
    subst hpq
    exact insert_fresh_prefix pfx q _ none V data hne

/-- Witness for the amended C7 theorem: the `e4` tier move is present at its
path in the rebuilt tree, and the intermediate node `a` created for a move at
path `[a, b]` carries the placeholder stats. -/
theorem create_level_tree_props_witness :
    containsMovePath (create_level_knowledge_tree [c7move]) c7move.path c7move.move = true ∧
      ∃ u, nodeAtPath (create_level_knowledge_tree
          [{ move := "c", path := ["a", "b"], difficulty := 0, rating := 1200,
             times_played := 0, win_rate := 1/2, depth := 0, game_phase := "unknown",
             phase_progress := 1/2, position_complexity := 1/2, move_data := emptyLeaf,
             move_sequence := ["c"] }]) ["a"]
        = some u ∧ u.stats = some { timesVisited := some 0 } ∧ u.position = none := by
  constructor
  · refine create_level_tree_props.1 c7root [c7move] ?_ c7move (by simp)
    intro m hm
    rw [List.mem_singleton] at hm
    subst hm
    rfl
  · exact create_level_tree_props.2 ["a", "b"] "c" emptyLeaf ["a"] ["b"] rfl (by simp)

/-- C8: round-trip path preservation.  For any well-formed source tree, any
tier produced by the stratifier from the walk of that tree, and any move of
that tier, re-walking the rebuilt tier tree emits a record with the same path
and move notation. -/
theorem tier_roundtrip_paths (t : Node) (hwf : t.wfB = true) (L : List ScoredMove)
    (hL : L ∈ categorize_moves_by_difficulty (analyze_move_difficulty t 0 [] none []))
    (m : ScoredMove) (hm : m ∈ L) :
    ∃ m2 ∈ analyze_move_difficulty (create_level_knowledge_tree L) 0 [] none [],
      m2.path = m.path ∧ m2.move = m.move := by
  have hsub : ∀ m' ∈ L, m' ∈ analyze_move_difficulty t 0 [] none [] := by
    intro m' hm'
    have h1 : m' ∈ (categorize_moves_by_difficulty
        (analyze_move_difficulty t 0 [] none [])).flatten :=
      List.mem_flatten.2 ⟨L, hL, hm'⟩
    obtain ⟨_, hflat⟩ := categorize_levels_spec (analyze_move_difficulty t 0 [] none [])
    rw [hflat] at h1
    exact List.mem_mergeSort.1 h1
  have hcons : ∀ m' ∈ L, nodeAtPath t (m'.path ++ [m'.move]) = some m'.move_data := by
    intro m' hm'
    obtain ⟨r, hr, hdata⟩ := analyze_data_consistent hwf (hsub m' hm')
    rw [List.nil_append] at hr
    rw [hr]
    exact hdata
  have hroot : ∀ r v, containsMovePath levelRootNode r v = true →
      containsMovePath t r v = true := by
    intro r v h
    have h2 : containsMovePath levelRootNode r v = false :=
      containsMovePath_empty_moves _ _ r v
    rw [h2] at h
    cases h
  obtain ⟨_, hcontains, _⟩ := fold_insert_spec t L levelRootNode hcons hroot
  have hc : containsMovePath (create_level_knowledge_tree L) m.path m.move = true :=
    hcontains m hm
  obtain ⟨m2, hm2, hp2, hv2⟩ := analyze_complete hc 0 [] none []
  refine ⟨m2, hm2, ?_, hv2⟩
  rw [hp2, List.nil_append]

/-! C8 witness construction and C4 theorems. -/

/-- A one-move source tree for the C8 witness. -/
def c8root : Node := .mk [("e4", emptyLeaf)] none none

/-- The single walker record produced from `c8root`. -/
def c8rec : ScoredMove :=
  mkScoredMove 0 [] [] (node_phase_complexity none c8root).1
    (node_phase_complexity none c8root).2 "e4" emptyLeaf

lemma c8root_moves : c8root.moves = [("e4", emptyLeaf)] := rfl

lemma emptyLeaf_moves : emptyLeaf.moves = ([] : List (String × Node)) := rfl

lemma c8xs_eq : analyze_move_difficulty c8root 0 [] none [] = [c8rec] := by
  rw [analyze_unfold, c8root_moves, analyze_moves_list, analyze_unfold, emptyLeaf_moves,
    analyze_moves_list, analyze_moves_list]
  rfl

lemma categorize_one (l : List ScoredMove) (h : l.length = 1) :
    categorize_moves_by_difficulty l = [[], [], [], [], [], [], [], l] := by
  obtain ⟨a, rfl⟩ := List.length_eq_one.1 h
  have hs : sortByDifficulty [a] = [a] := List.mergeSort_singleton a
  unfold categorize_moves_by_difficulty
  rw [hs]
  norm_num [slice_levels, level_percentages, extendLast]

lemma c8root_wf : c8root.wfB = true := by
  rw [Node.wfB, c8root_moves]
  simp [wfListB, Node.wfB, emptyLeaf_moves]

/-- Witness for C8: on the one-move tree, the only tier holding the move is
rebuilt and re-walked to a record with the same path and move. -/
theorem tier_roundtrip_paths_witness :
    ∃ m2 ∈ analyze_move_difficulty
        (create_level_knowledge_tree (analyze_move_difficulty c8root 0 [] none []))
        0 [] none [],
      m2.path = c8rec.path ∧ m2.move = c8rec.move := by
  refine tier_roundtrip_paths c8root c8root_wf
    (analyze_move_difficulty c8root 0 [] none []) ?_ c8rec ?_
  · rw [c8xs_eq, categorize_one [c8rec] rfl]
    simp
  · rw [c8xs_eq]
    simp

/-- Node `a` of the C4 scenario: no position data of its own, one move `b`. -/
def c4a : Node := .mk [("b", emptyLeaf)] none none

/-- Root of the C4 scenario: it carries position "QQQ", and its child node
`a` carries none. -/
def c4root : Node := .mk [("a", c4a)] none (some "QQQ")

/-- When a node's own position data is absent, the phase and complexity
resolved for it from a `none` inherited value are the defaults. -/
lemma node_phase_complexity_none {c : Node} (h : ownPosRaw c = none) :
    node_phase_complexity none c = (("unknown", 0.5), 0.5) := by
  unfold node_phase_complexity resolve_position_info resolve_piece_counts optTruthy
  rw [h]
  rfl

/-- C4 (amended): the walker does not inherit ancestor positions.  For any
child node with no position data of its own, the records emitted for that
child's own moves carry the default phase `unknown` and complexity 1/2 —
whatever position the parent (or any ancestor) carries. -/
theorem analyze_positionless_defaults (n : Node) (d : Nat) (p : List String)
    (pos : Option String) (seq : List String) (k : String) (c : Node)
    (hnd : (n.moves.map Prod.fst).Nodup) (hkc : (k, c) ∈ n.moves)
    (hnopos : ownPosRaw c = none) :
    ∀ m ∈ analyze_move_difficulty n d p pos seq, m.path = p ++ [k] →
      m.game_phase = "unknown" ∧ m.position_complexity = 1/2 := by
  intro m hm hpath
  rcases (mem_analyze n d p pos seq).1 hm with ⟨k2, c2, hkc2, heq | hrec⟩
  · exfalso
    rw [heq, mkScoredMove_path] at hpath
    have := congrArg List.length hpath
    simp at this
  · obtain ⟨r, hr⟩ := analyze_path_prefix hrec
    rw [hpath, List.append_assoc] at hr
    have h2 : [k] = [k2] ++ r := List.append_cancel_left hr
    rw [List.singleton_append] at h2
    injection h2 with hk2 hrnil
    subst hk2
    subst hrnil
    have hc2 : c2 = c := mem_unique_of_nodup hnd hkc2 hkc
    subst hc2
    obtain ⟨k3, c3, _, heq3⟩ := analyze_own_level hrec hpath
    rw [heq3, mkScoredMove_game_phase, mkScoredMove_position_complexity, hnopos,
      node_phase_complexity_none hnopos]
    norm_num

lemma c4a_moves : c4a.moves = [("b", emptyLeaf)] := rfl

lemma c4root_moves : c4root.moves = [("a", c4a)] := rfl

lemma c4_count : count_pieces "QQQ" = ⟨0, 0, 0, 0, 3, 0, 0, 0, 0, 0, 0, 0⟩ := by decide

lemma c4_phase : (determine_game_phase (count_pieces "QQQ")).1 = "middlegame" := by
  rw [c4_count]
  norm_num [determine_game_phase, total_pieces, total_material, white_material,
    black_material]

lemma c4root_npc : node_phase_complexity none c4root =
    (determine_game_phase (count_pieces "QQQ"),
      calculate_position_complexity (count_pieces "QQQ")) := rfl

/-- C4 counterexample: in the tree whose root has position "QQQ" (a
middlegame position) and whose positionless child node `a` holds the move
`b`, the record emitted for `b` has phase `unknown` — the ancestor's
position is not inherited, contrary to the claim. -/
theorem analyze_no_inheritance_counterexample :
    (determine_game_phase (count_pieces "QQQ")).1 = "middlegame" ∧
      (analyze_move_difficulty c4root 0 [] none []).map
        (fun m => (m.move, m.game_phase)) = [("a", "middlegame"), ("b", "unknown")] := by
  refine ⟨c4_phase, ?_⟩
  have hb0 : ownPosRaw c4a = none := rfl
  simp only [analyze_unfold, analyze_moves_list, c4root_moves, c4a_moves, emptyLeaf_moves]
  simp only [List.cons_append, List.nil_append, List.append_nil, List.map_cons, List.map_nil,
    mkScoredMove_move, mkScoredMove_game_phase]
  rw [c4root_npc, hb0, node_phase_complexity_none hb0]
  simp [c4_phase]

/-- The walker record for the move `a` at the root of `c4root`. -/
def c4arec : ScoredMove :=
  mkScoredMove 0 [] [] (node_phase_complexity none c4root).1
    (node_phase_complexity none c4root).2 "a" c4a

/-- The walker record for the move `b` of the positionless node `a`. -/
def c4brec : ScoredMove :=
  mkScoredMove 1 ["a"] ["a"] (node_phase_complexity (ownPosRaw c4a) c4a).1
    (node_phase_complexity (ownPosRaw c4a) c4a).2 "b" emptyLeaf

lemma c4xs_eq : analyze_move_difficulty c4root 0 [] none [] = [c4arec, c4brec] := by
  simp only [analyze_unfold, analyze_moves_list, c4root_moves, c4a_moves, emptyLeaf_moves]
  rfl

/-- Witness for the amended C4 theorem: the record emitted for move `b` of
the positionless node `a` carries the default phase and complexity. -/
theorem analyze_positionless_defaults_witness :
    c4brec.game_phase = "unknown" ∧ c4brec.position_complexity = 1/2 := by
  refine analyze_positionless_defaults c4root 0 [] none [] "a" c4a ?_ ?_ rfl c4brec ?_ rfl
  · show ((["a"] : List String)).Nodup
    exact List.nodup_singleton _
  · show ("a", c4a) ∈ [("a", c4a)]
    exact List.mem_singleton.2 rfl
  · rw [c4xs_eq]
    simp

end ChessSplit
